import Mathlib

set_option maxRecDepth 20000
set_option exponentiation.threshold 1100

/-!
Shallow embedding of `projects/telegram-discount-bot/bot.py`.

Numbers that the Python program holds in IEEE-754 doubles are modelled as
exact rationals (`ℚ`); the one place where double semantics is observable to
the program — `float(str)` overflowing to `+inf` for decimal literals at or
beyond the binary64 overflow threshold — is modelled explicitly by `PyVal.inf`
and the threshold constant `floatOvf`.  Strings are Lean `String`s; the
program only ever feeds ASCII-relevant characters to the case/digit
primitives it uses, and the embedding uses the corresponding ASCII primitives.
-/

namespace Descuento

/-- Result of Python `float(...)` as observed by this program: a finite value
(modelled exactly as a rational) or positive infinity (decimal overflow). -/
inductive PyVal where
  | finite : ℚ → PyVal
  | inf : PyVal
  deriving DecidableEq, Repr

/-- IEEE binary64 overflow threshold for round-to-nearest-even: a decimal
literal with exact value `≥ 2^1024 - 2^970` parses to `+inf`. -/
def floatOvf : ℚ := ((2 ^ 1024 - 2 ^ 970 : ℕ) : ℚ)

/-- The character filter of `re.sub(r"[^\d,\.]", "", value)`: keep digits,
commas and periods. -/
def cleanChars (l : List Char) : List Char :=
  l.filter fun c => c.isDigit || c = ',' || c = '.'

/-- Numeric value of a digit list, most significant first (`ℚ`-valued). -/
def digitsVal : List Char → ℚ
  | [] => 0
  | c :: t => ((c.toNat - 48 : ℕ) : ℚ) * ((10 ^ t.length : ℕ) : ℚ) + digitsVal t

/-- Exact rational value of a decimal literal made of digits and at most one
period: integer part plus fractional part scaled down. -/
def decimalVal (l : List Char) : ℚ :=
  let ip := l.takeWhile fun c => c ≠ '.'
  let fp := (l.dropWhile fun c => c ≠ '.').drop 1
  digitsVal ip + digitsVal fp / ((10 ^ fp.length : ℕ) : ℚ)

/-- Python `float(str)` restricted to the alphabet this program can produce
(digits, commas, periods): it succeeds iff the text is digits with at most one
period and at least one digit; overflow yields `inf`. -/
def pyFloat (l : List Char) : Option PyVal :=
  if l.any (fun c => c.isDigit) &&
      l.all (fun c => c.isDigit || c = '.') &&
      decide (l.count '.' ≤ 1) then
    if floatOvf ≤ decimalVal l then some PyVal.inf else some (PyVal.finite (decimalVal l))
  else
    none

/-- `cleaned.rfind(",") > cleaned.rfind(".")`: scanning from the end, a comma
is met before a period.  (Both separators are present when this is consulted,
so the first separator of the reversed list is the later one of the string.) -/
def lastSepIsComma (l : List Char) : Bool :=
  match l.reverse.find? (fun c => c = ',' || c = '.') with
  | some c => c = ','
  | none => false

/-- The separator-disambiguation block of `parse_price` (bot.py lines 95-103):
both separators present → drop the kind whose last occurrence is earlier and
turn the other kind into periods; exactly one comma (and hence no period) →
comma becomes the period; several periods (and no comma) → all periods
dropped; otherwise unchanged. -/
def disambiguate (l : List Char) : List Char :=
  if l.contains ',' && l.contains '.' then
    if lastSepIsComma l then
      (l.filter fun c => c ≠ '.').map fun c => if c = ',' then '.' else c
    else
      l.filter fun c => c ≠ ','
  else if l.count ',' = 1 then
    l.map fun c => if c = ',' then '.' else c
  else if 1 < l.count '.' then
    l.filter fun c => c ≠ '.'
  else
    l

/-- `parse_price` (bot.py lines 90-108): strip to digits/commas/periods,
reject when empty, disambiguate the separators, parse as a float. -/
def parse_price (s : String) : Option PyVal :=
  let cleaned := cleanChars s.data
  if cleaned.isEmpty then none
  else pyFloat (disambiguate cleaned)

/-! ### SHA-256 (for `stable_id`), over byte lists modelled as `List ℕ` -/

/-- Truncate to a 32-bit word. -/
def w32 (n : ℕ) : ℕ := n % 4294967296

/-- 32-bit right rotation (inputs are 32-bit words). -/
def rotr (k n : ℕ) : ℕ := w32 ((n >>> k) ||| (n <<< (32 - k)))

/-- 32-bit bitwise complement. -/
def bnot32 (n : ℕ) : ℕ := n ^^^ 4294967295

def ch (x y z : ℕ) : ℕ := (x &&& y) ^^^ (bnot32 x &&& z)

def maj (x y z : ℕ) : ℕ := (x &&& y) ^^^ (x &&& z) ^^^ (y &&& z)

def bigSigma0 (n : ℕ) : ℕ := rotr 2 n ^^^ rotr 13 n ^^^ rotr 22 n

def bigSigma1 (n : ℕ) : ℕ := rotr 6 n ^^^ rotr 11 n ^^^ rotr 25 n

def smallSigma0 (n : ℕ) : ℕ := rotr 7 n ^^^ rotr 18 n ^^^ (n >>> 3)

def smallSigma1 (n : ℕ) : ℕ := rotr 17 n ^^^ rotr 19 n ^^^ (n >>> 10)

/-- The 64 SHA-256 round constants. -/
def shaK : List ℕ :=
  [1116352408, 1899447441, 3049323471, 3921009573, 961987163, 1508970993,
   2453635748, 2870763221, 3624381080, 310598401, 607225278, 1426881987,
   1925078388, 2162078206, 2614888103, 3248222580, 3835390401, 4022224774,
   264347078, 604807628, 770255983, 1249150122, 1555081692, 1996064986,
   2554220882, 2821834349, 2952996808, 3210313671, 3336571891, 3584528711,
   113926993, 338241895, 666307205, 773529912, 1294757372, 1396182291,
   1695183700, 1986661051, 2177026350, 2456956037, 2730485921, 2820302411,
   3259730800, 3345764771, 3516065817, 3600352804, 4094571909, 275423344,
   430227734, 506948616, 659060556, 883997877, 958139571, 1322822218,
   1537002063, 1747873779, 1955562222, 2024104815, 2227730452, 2361852424,
   2428436474, 2756734187, 3204031479, 3329325298]

/-- SHA-256 working state (eight 32-bit words). -/
structure Hash8 where
  a : ℕ
  b : ℕ
  c : ℕ
  d : ℕ
  e : ℕ
  f : ℕ
  g : ℕ
  h : ℕ
  deriving DecidableEq, Repr

/-- SHA-256 initial hash value. -/
def shaH0 : Hash8 :=
  ⟨1779033703, 3144134277, 1013904242, 2773480762, 1359893119, 2600822924, 528734635, 1541459225⟩

/-- Pack bytes into big-endian 32-bit words (four bytes each). -/
def toWords : List ℕ → List ℕ
  | b0 :: b1 :: b2 :: b3 :: rest => (((b0 * 256 + b1) * 256 + b2) * 256 + b3) :: toWords rest
  | _ => []

/-- Extend a 16-word message schedule by `n` further words. -/
def extendW : ℕ → List ℕ → List ℕ
  | 0, ws => ws
  | n + 1, ws =>
    let i := ws.length
    let wNew := w32 (ws.getD (i - 16) 0 + smallSigma0 (ws.getD (i - 15) 0) +
      ws.getD (i - 7) 0 + smallSigma1 (ws.getD (i - 2) 0))
    extendW n (ws ++ [wNew])

/-- One SHA-256 compression round with round constant and schedule word `kw`. -/
def compressStep (st : Hash8) (kw : ℕ × ℕ) : Hash8 :=
  let t1 := w32 (st.h + bigSigma1 st.e + ch st.e st.f st.g + kw.1 + kw.2)
  let t2 := w32 (bigSigma0 st.a + maj st.a st.b st.c)
  ⟨w32 (t1 + t2), st.a, st.b, st.c, w32 (st.d + t1), st.e, st.f, st.g⟩

/-- Process one padded 64-byte block. -/
def compressBlock (st : Hash8) (block : List ℕ) : Hash8 :=
  let ws := extendW 48 (toWords block)
  let fin := (shaK.zip ws).foldl compressStep st
  ⟨w32 (st.a + fin.a), w32 (st.b + fin.b), w32 (st.c + fin.c), w32 (st.d + fin.d),
   w32 (st.e + fin.e), w32 (st.f + fin.f), w32 (st.g + fin.g), w32 (st.h + fin.h)⟩

/-- Split a byte list into 64-byte chunks (`fuel` bounds the recursion by the
list length, keeping the definition structurally recursive). -/
def chunksGo : ℕ → List ℕ → List (List ℕ)
  | 0, _ => []
  | _, [] => []
  | fuel + 1, l => l.take 64 :: chunksGo fuel (l.drop 64)

/-- SHA-256 padding: append `0x80`, zeros to 56 mod 64, and the 64-bit
big-endian bit length. -/
def shaPad (m : List ℕ) : List ℕ :=
  let L := m.length
  let k := (119 - L % 64) % 64
  let bitLen := 8 * L
  m ++ 128 :: List.replicate k 0 ++
    [(bitLen >>> 56) % 256, (bitLen >>> 48) % 256, (bitLen >>> 40) % 256, (bitLen >>> 32) % 256,
     (bitLen >>> 24) % 256, (bitLen >>> 16) % 256, (bitLen >>> 8) % 256, bitLen % 256]

/-- SHA-256 of a byte list, as the final eight-word state. -/
def sha256 (m : List ℕ) : Hash8 :=
  let padded := shaPad m
  (chunksGo padded.length padded).foldl compressBlock shaH0

/-- Lowercase hexadecimal digit. -/
def hexDigit (n : ℕ) : Char :=
  if n < 10 then Char.ofNat (48 + n) else Char.ofNat (87 + n)

/-- Eight lowercase hex characters of one 32-bit word, most significant first. -/
def wordHex (n : ℕ) : List Char :=
  [hexDigit ((n >>> 28) % 16), hexDigit ((n >>> 24) % 16), hexDigit ((n >>> 20) % 16),
   hexDigit ((n >>> 16) % 16), hexDigit ((n >>> 12) % 16), hexDigit ((n >>> 8) % 16),
   hexDigit ((n >>> 4) % 16), hexDigit (n % 16)]

/-- `hashlib.sha256(...).hexdigest()` as a character list (64 hex characters). -/
def hexDigest (st : Hash8) : List Char :=
  wordHex st.a ++ wordHex st.b ++ wordHex st.c ++ wordHex st.d ++
    wordHex st.e ++ wordHex st.f ++ wordHex st.g ++ wordHex st.h

/-- UTF-8 encoding of one character, as bytes. -/
def utf8Bytes (c : Char) : List ℕ :=
  let n := c.toNat
  if n < 128 then [n]
  else if n < 2048 then [192 ||| (n >>> 6), 128 ||| (n &&& 63)]
  else if n < 65536 then
    [224 ||| (n >>> 12), 128 ||| ((n >>> 6) &&& 63), 128 ||| (n &&& 63)]
  else
    [240 ||| (n >>> 18), 128 ||| ((n >>> 12) &&& 63), 128 ||| ((n >>> 6) &&& 63),
     128 ||| (n &&& 63)]

/-- `str.encode("utf-8")` as a byte list. -/
def encodeUtf8 (s : String) : List ℕ :=
  (s.data.map utf8Bytes).flatten

/-- Python `str.strip()`: drop whitespace from both ends. -/
def pyStrip (l : List Char) : List Char :=
  ((l.dropWhile Char.isWhitespace).reverse.dropWhile Char.isWhitespace).reverse

/-- Python `str.lower()` (ASCII case map, which covers this program's data). -/
def pyLower (l : List Char) : List Char :=
  l.map Char.toLower

/-- The canonical identity key of `stable_id` (bot.py line 112):
`site | lowercased trimmed title | URL cut at the first question mark`. -/
def canonicalKey (site title url : String) : String :=
  site ++ "|" ++ String.mk (pyLower (pyStrip title.data)) ++ "|" ++
    String.mk (url.data.takeWhile fun c => c ≠ '?')

/-- `stable_id` (bot.py lines 111-113): first 24 hex characters of the SHA-256
of the canonical key. -/
def stable_id (site title url : String) : String :=
  String.mk ((hexDigest (sha256 (encodeUtf8 (canonicalKey site title url)))).take 24)

/-- A candidate product record (the `Product` dataclass, bot.py lines 81-87).
Prices are modelled as exact rationals. -/
structure Product where
  site : String
  product_id : String
  title : String
  price_pen : ℚ
  url : String
  deriving DecidableEq, Repr

/-- Lookup in an insertion-ordered association list (Python `dict.get`). -/
def lookup {α : Type} (k : String) : List (String × α) → Option α
  | [] => none
  | (k0, v) :: t => if k0 = k then some v else lookup k t

/-- Python `dict[k] = v`: overwrite in place when the key exists (keeping its
position), append otherwise. -/
def upsert {α : Type} (k : String) (v : α) : List (String × α) → List (String × α)
  | [] => [(k, v)]
  | (k0, v0) :: t => if k0 = k then (k, v) :: t else (k0, v0) :: upsert k v t

/-! ### The product extractor (`extract_products`, bot.py lines 134-178)

The parsed markup is modelled arena-style: a `Soup` maps each CSS selector to
the document-ordered list of indices of the container blocks matching it
(`soup.select`), and each index to a `Block`; a `Block` answers the
`select_one`-based probes the two `_pick_first_*` helpers make, and Python's
transient `id(block)` identity becomes the arena index.  `urljoin` is the
external URL-resolution collaborator, passed as a function. -/

/-- What one container block yields to the probes of `_pick_first_text` /
`_pick_first_href`: for a selector, `selText` is `get_text(" ", strip=True)`
of the first matching descendant (outer `none` when nothing matches), and
`selHref` is that first matching descendant's raw `href` attribute (outer
`none` when nothing matches, inner `none` when the node has no `href`). -/
structure Block where
  selText : String → Option String
  selHref : String → Option (Option String)

/-- Arena view of a parsed document. -/
structure Soup where
  select : String → List ℕ
  blockOf : ℕ → Block

/-- `TITLE_SELECTORS` (bot.py lines 40-50). -/
def TITLE_SELECTORS : List String :=
  ["[itemprop=name]", "h1", "h2", "h3", ".title", ".product-name",
   ".poly-component__title", ".pod-subTitle", ".product-item__title"]

/-- `PRICE_SELECTORS` (bot.py lines 52-62). -/
def PRICE_SELECTORS : List String :=
  ["[itemprop=price]", "[data-testid=price-part]", ".andes-money-amount__fraction",
   ".price", ".product-price", ".sales", ".money", ".price__current", ".pod-prices"]

/-- `LINK_SELECTORS` (bot.py lines 64-70). -/
def LINK_SELECTORS : List String :=
  ["a[href][title]", "a[href][aria-label]", "a[href*=/p/]", "a[href*=/producto]", "a[href]"]

/-- `SITE_PRODUCT_SELECTORS` (bot.py lines 33-38). -/
def SITE_PRODUCT_SELECTORS : List (String × List String) :=
  [("mercadolibre", ["li.ui-search-layout__item", "div.poly-card", "article"]),
   ("falabella", ["div.pod", "article", "li"]),
   ("hm", ["article.product-item", "li.product-item", "article", "li"]),
   ("shopstar", ["div.grid-product", "li.grid__item", "article", "li"])]

/-- The generic fallback cascade (bot.py line 138). -/
def defaultSelectors : List String := ["article", "li", "div"]

/-- `_pick_first_text` (bot.py lines 116-123): first selector whose matching
node has non-empty text wins; no hit yields the empty string. -/
def pickFirstText (b : Block) : List String → String
  | [] => ""
  | sel :: rest =>
    match b.selText sel with
    | some t => if t ≠ "" then t else pickFirstText b rest
    | none => pickFirstText b rest

/-- `_pick_first_href` (bot.py lines 126-131): first selector whose matching
node carries a truthy `href` wins, whitespace-stripped; a matching node with
a missing or empty `href` falls through; no hit yields the empty string. -/
def pickFirstHref (b : Block) : List String → String
  | [] => ""
  | sel :: rest =>
    match b.selHref sel with
    | some (some h) => if h ≠ "" then String.mk (pyStrip h.data) else pickFirstHref b rest
    | some none => pickFirstHref b rest
    | none => pickFirstHref b rest

/-- Python `price <= 0` on a `parse_price` result: true for a non-positive
finite value, false for `+inf` (IEEE comparison: `inf <= 0` is false). -/
def pyNonpos : PyVal → Bool
  | PyVal.finite q => decide (q ≤ 0)
  | PyVal.inf => false

/-- The `Product` dataclass exactly as `extract_products` builds it (bot.py
lines 81-87 and 159-167), with its float price carried as a `PyVal` so the
infinite-price result of `parse_price` is representable.  The orchestrator
section models the same dataclass over exact rationals (`Product`), its
declared finite-price state space. -/
structure RawProduct where
  site : String
  product_id : String
  title : String
  price_pen : PyVal
  url : String
  deriving DecidableEq, Repr

/-- The per-block body of the extraction loop (bot.py lines 148-167): probe
title, raw price and link; discard silently when one is missing, when the
price text fails `parse_price`, or when the parsed amount is non-positive
(`price is None or price <= 0`, line 155); otherwise resolve the URL and
build the record.  A price text at or beyond the float overflow threshold
parses to `+inf`, which is not non-positive, so such a block is kept and
yields a record with an infinite price. -/
def extractBlock (site base : String) (join : String → String → String) (b : Block) :
    Option RawProduct :=
  if pickFirstText b TITLE_SELECTORS = "" ∨ pickFirstText b PRICE_SELECTORS = "" ∨
      pickFirstHref b LINK_SELECTORS = "" then none
  else
    match parse_price (pickFirstText b PRICE_SELECTORS) with
    | none => none
    | some v =>
      if pyNonpos v then none
      else
        some ⟨site,
          stable_id site (pickFirstText b TITLE_SELECTORS)
            (join base (pickFirstHref b LINK_SELECTORS)),
          pickFirstText b TITLE_SELECTORS, v, join base (pickFirstHref b LINK_SELECTORS)⟩

/-- Accumulator of the extraction scan: visited block indices (`seen_blocks`),
records built so far, and whether the `MAX_ITEMS_PER_SITE` break fired. -/
structure ExAcc where
  seen : List ℕ
  products : List RawProduct
  done : Bool

/-- One iteration of the inner block loop (bot.py lines 142-170): after the
cap break has fired nothing further runs; an already-visited block is
skipped; otherwise the block is marked visited, its record (if any) is
appended, and the cap break fires when the record count reaches `maxItems`. -/
def exStep (site base : String) (join : String → String → String) (soup : Soup)
    (maxItems : ℕ) (acc : ExAcc) (i : ℕ) : ExAcc :=
  if acc.done then acc
  else if acc.seen.contains i then acc
  else
    let seen := i :: acc.seen
    match extractBlock site base join (soup.blockOf i) with
    | none => ⟨seen, acc.products, false⟩
    | some p =>
      let ps := acc.products ++ [p]
      ⟨seen, ps, decide (maxItems ≤ ps.length)⟩

/-- `deduped`/`setdefault` (bot.py lines 174-178): collapse duplicate
identifiers keeping the first-encountered record, in insertion order. -/
def dedupeProducts (ps : List RawProduct) : List RawProduct :=
  (ps.foldl
    (fun acc p => if (lookup p.product_id acc).isSome then acc else acc ++ [(p.product_id, p)])
    []).map Prod.snd

/-- The scan phase of `extract_products` (bot.py lines 138-172): walk the
site's selector cascade (falling back to the generic one), visiting each
block at most once, until the cap break fires. -/
def extractScan (site : String) (soup : Soup) (base : String)
    (join : String → String → String) (maxItems : ℕ) : ExAcc :=
  let selectors :=
    match lookup site SITE_PRODUCT_SELECTORS with
    | some l => l
    | none => defaultSelectors
  selectors.foldl
    (fun acc sel => (soup.select sel).foldl (exStep site base join soup maxItems) acc)
    (⟨[], [], false⟩ : ExAcc)

/-- `extract_products` (bot.py lines 134-178): the scan above, then collapse
duplicate identifiers. -/
def extract_products (site : String) (soup : Soup) (base : String)
    (join : String → String → String) (maxItems : ℕ) : List RawProduct :=
  dedupeProducts (extractScan site soup base join maxItems).products

/-- A one-block document whose single price text is `1` followed by 309
zeros (the overflow input of `parse_price`); the block also offers a title
under `h1` and a link under `a[href]`. -/
def overflowBlock : Block :=
  ⟨fun sel =>
    if sel = "h1" then some "T"
    else if sel = ".price" then some (String.mk ('1' :: List.replicate 309 '0'))
    else none,
   fun sel => if sel = "a[href]" then some (some "/p/1") else none⟩

/-- The document holding `overflowBlock` as its only `article` container. -/
def overflowSoup : Soup :=
  ⟨fun sel => if sel = "article" then [0] else [], fun _ => overflowBlock⟩

/-! ### The run orchestrator (`monitor`, bot.py lines 201-274)

The external collaborators are modelled at their interfaces: the fetch plus
extraction of one site is an `Option (List Product)` (`none` is the
`requests.RequestException` path that logs and skips the site), notification
delivery is a success predicate on the message text, and `int(time.time())`
is a single `now` parameter.  Python dicts are insertion-ordered association
lists. -/

/-- One tracked-product state entry (the dict built at bot.py lines 228-234). -/
structure Entry where
  title : String
  site : String
  url : String
  last_price : ℚ
  updated_at : ℤ
  deriving DecidableEq, Repr

/-- The mutable run state: `known_products` and `alerts_sent`
(bot.py lines 209-210). -/
structure St where
  products : List (String × Entry)
  alerts_sent : List (String × ℤ)
  deriving DecidableEq, Repr

/-- Python `f"{q:.Nf}"` for the non-negative amounts this program formats:
round to `d` decimal places and print with the fractional part zero-padded. -/
def fmtFixed (d : ℕ) (q : ℚ) : String :=
  let base : ℤ := (10 : ℤ) ^ d
  let m : ℤ := round (q * (10 : ℚ) ^ d)
  let fs := toString (m % base).toNat
  toString (m / base) ++ "." ++ String.mk (List.replicate (d - fs.length) '0') ++ fs

/-- The dedup transition key (bot.py line 247):
`product_id:old_price:.2f->new_price:.2f`. -/
def alertKey (pid : String) (oldP newP : ℚ) : String :=
  pid ++ ":" ++ fmtFixed 2 oldP ++ "->" ++ fmtFixed 2 newP

/-- The alert message text (bot.py lines 251-258). -/
def alertText (dropPct : ℚ) (site title : String) (oldP newP : ℚ) (url : String) : String :=
  "🔥 DESCUENTO FUERTE (" ++ fmtFixed 1 dropPct ++ "%)\n" ++
    "Tienda: " ++ site ++ "\n" ++
    "Producto: " ++ title ++ "\n" ++
    "Antes: S/ " ++ fmtFixed 2 oldP ++ "\n" ++
    "Ahora: S/ " ++ fmtFixed 2 newP ++ "\n" ++
    "Link: " ++ url

/-- The body of the per-product loop (bot.py lines 226-260): record the
observation unconditionally, then decide drop / threshold / dedup and
possibly append an alert. -/
def processProduct (threshold : ℚ) (now : ℤ) (site : String) (acc : St × List String)
    (p : Product) : St × List String :=
  let st := acc.1
  let alerts := acc.2
  let prev := lookup p.product_id st.products
  let products1 := upsert p.product_id ⟨p.title, site, p.url, p.price_pen, now⟩ st.products
  let st1 : St := ⟨products1, st.alerts_sent⟩
  match prev with
  | none => (st1, alerts)
  | some e =>
    let oldP := e.last_price
    if oldP ≤ 0 ∨ p.price_pen ≥ oldP then (st1, alerts)
    else
      let dropPct := (oldP - p.price_pen) / oldP * 100
      if dropPct < threshold then (st1, alerts)
      else
        let key := alertKey p.product_id oldP p.price_pen
        if (lookup key st1.alerts_sent).isSome then (st1, alerts)
        else
          (⟨products1, upsert key now st1.alerts_sent⟩,
            alerts ++ [alertText dropPct site p.title oldP p.price_pen p.url])

/-- Process one successfully fetched site's extracted products in order. -/
def processSite (threshold : ℚ) (now : ℤ) (site : String) (ps : List Product)
    (st : St) (alerts : List String) : St × List String :=
  ps.foldl (processProduct threshold now site) (st, alerts)

/-- The site loop (bot.py lines 213-260): a failed fetch (`none`) is skipped,
a fetched site's products are processed against the shared state. -/
def processSites (threshold : ℚ) (now : ℤ) (sites : List (String × Option (List Product)))
    (st : St) : St × List String :=
  sites.foldl
    (fun acc sp =>
      match sp.2 with
      | none => acc
      | some ps => processSite threshold now sp.1 ps acc.1 acc.2)
    (st, [])

/-- The send loop (bot.py lines 262-264): each message is sent in order;
`send_telegram_message` raises on failure (`response.raise_for_status()`,
line 198) and there is no handler, so the first failure aborts the loop.
Returns the alerts for which a send was attempted, and whether the loop ran
to completion. -/
def sendPhase (sendOk : String → Bool) : List String → List String × Bool
  | [] => ([], true)
  | a :: rest =>
    if sendOk a then
      (a :: (sendPhase sendOk rest).1, (sendPhase sendOk rest).2)
    else ([a], false)

/-- Outcome of one run: the alerts whose send was attempted, the full
accepted-alert list, and the state root passed to `save_state` — `none` when
the run aborted before reaching it. -/
structure RunResult where
  attempted : List String
  alerts : List String
  persisted : Option (St × ℤ)
  deriving DecidableEq, Repr

/-- One full run of `monitor` after configuration checks: process all sites,
send the alert list truncated to `cap` (`MAX_ALERTS_PER_RUN`), and persist
the updated state only if every attempted send succeeded. -/
def runMonitor (threshold : ℚ) (cap : ℕ) (now : ℤ) (sendOk : String → Bool)
    (sites : List (String × Option (List Product))) (st : St) : RunResult :=
  let r := processSites threshold now sites st
  let send := sendPhase sendOk (r.2.take cap)
  ⟨send.1, r.2, if send.2 then some (r.1, now) else none⟩

/-- The per-site step of the site loop. -/
def siteStep (thr : ℚ) (now : ℤ) (acc : St × List String)
    (sp : String × Option (List Product)) : St × List String :=
  match sp.2 with
  | none => acc
  | some ps => processSite thr now sp.1 ps acc.1 acc.2

/-- Cap invariant of the scan accumulator. -/
def CapInv (maxItems : ℕ) (acc : ExAcc) : Prop :=
  acc.products.length ≤ maxItems ∧ (acc.done = false → acc.products.length < maxItems)

/-- Default `DROP_THRESHOLD` (bot.py line 21). -/
def DROP_THRESHOLD : ℚ := 50

/-- Default `MAX_ITEMS_PER_SITE` (bot.py line 23). -/
def MAX_ITEMS_PER_SITE : ℕ := 60

/-- Default `MAX_ALERTS_PER_RUN` (bot.py line 24). -/
def MAX_ALERTS_PER_RUN : ℕ := 20

/-! ### Supporting lemmas -/

theorem digitsVal_nonneg (l : List Char) : 0 ≤ digitsVal l := by
  induction l with
  | nil => simp [digitsVal]
  | cons c t ih =>
    unfold digitsVal
    positivity

theorem decimalVal_nonneg (l : List Char) : 0 ≤ decimalVal l := by
  unfold decimalVal
  have h1 := digitsVal_nonneg (l.takeWhile fun c => c ≠ '.')
  have h2 := digitsVal_nonneg ((l.dropWhile fun c => c ≠ '.').drop 1)
  positivity

theorem pyFloat_cases (l : List Char) :
    pyFloat l = none ∨ pyFloat l = some PyVal.inf ∨
      ∃ q : ℚ, pyFloat l = some (PyVal.finite q) ∧ 0 ≤ q := by
  simp only [pyFloat]
  split
  · split
    · exact Or.inr (Or.inl rfl)
    · exact Or.inr (Or.inr ⟨_, rfl, decimalVal_nonneg l⟩)
  · exact Or.inl rfl

/-! ### Claims about `parse_price` -/

/-- C4 counterexample: the claim says `parse_price` rejects any input that
does not parse as a finite amount, so no input, however long, yields an
infinite result; but the code has no finiteness check and `float(...)`
overflows to `+inf`, so the 310-character price text `1` followed by 309
zeros yields an infinite value instead of a rejection. -/
theorem digitsVal_replicate_zero (n : ℕ) : digitsVal (List.replicate n '0') = 0 := by
  induction n with
  | zero => simp [digitsVal]
  | succ n ih =>
    rw [List.replicate_succ]
    unfold digitsVal
    rw [ih]
    norm_num [show '0'.toNat = 48 from rfl]

/-- `parse_price` of the 310-character text `1` followed by 309 zeros: the
exact value is `10^309`, past the binary64 overflow threshold, so `float()`
yields `+inf`. -/
theorem parse_price_replicate_inf :
    parse_price (String.mk ('1' :: List.replicate 309 '0')) = some PyVal.inf := by
  have hmem : ∀ c ∈ ('1' :: List.replicate 309 '0'), c = '1' ∨ c = '0' := by
    intro c hc
    rcases List.mem_cons.mp hc with h | h
    · exact Or.inl h
    · exact Or.inr (List.eq_of_mem_replicate h)
  have hnocomma : ¬ (',' ∈ ('1' :: List.replicate 309 '0')) := by
    intro h
    rcases hmem ',' h with h1 | h1 <;> exact absurd h1 (by decide)
  have hnodot : ¬ (('.' : Char) ∈ ('1' :: List.replicate 309 '0')) := by
    intro h
    rcases hmem '.' h with h1 | h1 <;> exact absurd h1 (by decide)
  have hclean : cleanChars ('1' :: List.replicate 309 '0') = '1' :: List.replicate 309 '0' := by
    unfold cleanChars
    rw [List.filter_eq_self]
    intro c hc
    rcases hmem c hc with h | h <;> subst h <;> decide
  have hcc : ('1' :: List.replicate 309 '0').contains ',' = false := by simp
  have hcntc : List.count ',' ('1' :: List.replicate 309 '0') = 0 :=
    List.count_eq_zero_of_not_mem hnocomma
  have hcntd : List.count '.' ('1' :: List.replicate 309 '0') = 0 :=
    List.count_eq_zero_of_not_mem hnodot
  have hdis : disambiguate ('1' :: List.replicate 309 '0') = '1' :: List.replicate 309 '0' := by
    unfold disambiguate
    rw [hcc, Bool.false_and, if_neg (show ¬(false = true) by decide)]
    rw [hcntc, if_neg (show ¬((0 : ℕ) = 1) by decide)]
    rw [hcntd, if_neg (show ¬((1 : ℕ) < 0) by decide)]
  have htake : ('1' :: List.replicate 309 '0').takeWhile (fun c => c ≠ '.') =
      '1' :: List.replicate 309 '0' := by
    rw [List.takeWhile_eq_self_iff]
    intro c hc
    rcases hmem c hc with h | h <;> subst h <;> decide
  have hdrop : ('1' :: List.replicate 309 '0').dropWhile (fun c => c ≠ '.') = [] := by
    rw [List.dropWhile_eq_nil_iff]
    intro c hc
    rcases hmem c hc with h | h <;> subst h <;> decide
  have hval : decimalVal ('1' :: List.replicate 309 '0') = ((10 ^ 309 : ℕ) : ℚ) := by
    unfold decimalVal
    rw [htake, hdrop]
    show digitsVal ('1' :: List.replicate 309 '0') + digitsVal ([].drop 1) / _ = _
    unfold digitsVal
    rw [digitsVal_replicate_zero]
    norm_num [show '1'.toNat = 49 from rfl]
  have hcond : ((('1' :: List.replicate 309 '0').any (fun c => c.isDigit) &&
      (('1' :: List.replicate 309 '0').all fun c => c.isDigit || c = '.')) &&
      decide (List.count '.' ('1' :: List.replicate 309 '0') ≤ 1)) = true := by
    simp only [Bool.and_eq_true]
    refine ⟨⟨?_, ?_⟩, ?_⟩
    · exact List.any_eq_true.mpr ⟨'1', List.mem_cons_self _ _, by decide⟩
    · refine List.all_eq_true.mpr ?_
      intro c hc
      rcases hmem c hc with h | h <;> subst h <;> decide
    · rw [hcntd]
      decide
  show parse_price ⟨'1' :: List.replicate 309 '0'⟩ = some PyVal.inf
  simp only [parse_price]
  show (if (cleanChars ('1' :: List.replicate 309 '0')).isEmpty = true then none
      else pyFloat (disambiguate (cleanChars ('1' :: List.replicate 309 '0')))) = some PyVal.inf
  rw [hclean, hdis]
  rw [if_neg (show ¬(('1' :: List.replicate 309 '0').isEmpty = true) by simp)]
  unfold pyFloat
  rw [if_pos hcond]
  rw [if_pos (show floatOvf ≤ decimalVal ('1' :: List.replicate 309 '0') from by
    rw [hval]
    unfold floatOvf
    exact Nat.cast_le.mpr (by decide))]

/-- C4 counterexample: the claim says an input, however long, never yields an
infinite result; but the code has no finiteness check and `float(...)`
overflows to `+inf`, so the 310-character price text `1` followed by 309
zeros yields an infinite value instead of a rejection. -/
theorem claim_C4_counterexample :
    parse_price (String.mk ('1' :: List.replicate 309 '0')) = some PyVal.inf :=
  parse_price_replicate_inf

/-- C4 (amended): for every input string, `parse_price` either rejects or
returns a non-negative value; it never returns a negative number.  The
finiteness half of the claim fails: an input whose digits form a number at or
beyond the binary64 overflow threshold yields positive infinity rather than a
rejection. -/
theorem claim_C4 (s : String) :
    parse_price s = none ∨ parse_price s = some PyVal.inf ∨
      ∃ q : ℚ, parse_price s = some (PyVal.finite q) ∧ 0 ≤ q := by
  simp only [parse_price]
  split
  · exact Or.inl rfl
  · exact pyFloat_cases _

/-- C10: `parse_price` depends only on the subsequence of digit, comma and
period characters of its input — re-running it on the cleaned text gives the
same result — and in particular the minus sign of `"-5.00"` is stripped, so
the negative-looking price yields the positive amount `5.0`. -/
theorem claim_C10 :
    (∀ s : String, parse_price (String.mk (cleanChars s.data)) = parse_price s) ∧
      parse_price "-5.00" = some (PyVal.finite 5) := by
  constructor
  · intro s
    show parse_price ⟨cleanChars s.data⟩ = parse_price s
    unfold parse_price
    have : cleanChars (String.mk (cleanChars s.data)).data = cleanChars s.data := by
      show cleanChars (cleanChars s.data) = cleanChars s.data
      unfold cleanChars
      rw [List.filter_filter]
      simp
    rw [this]
  · with_unfolding_all rfl

theorem contains_of_mem {l : List Char} {c : Char} (h : c ∈ l) : l.contains c = true := by
  simp [List.elem_eq_mem, h]

theorem contains_of_not_mem {l : List Char} {c : Char} (h : c ∉ l) : l.contains c = false := by
  simp [List.elem_eq_mem, h]

theorem lastSep_comma {a b : List Char} (hb : ∀ y ∈ b, y ≠ ',' ∧ y ≠ '.') :
    lastSepIsComma (a ++ ',' :: b) = true := by
  unfold lastSepIsComma
  rw [List.reverse_append, List.reverse_cons, List.append_assoc, List.singleton_append,
    List.find?_append]
  have hnone : b.reverse.find? (fun c => c = ',' || c = '.') = none := by
    rw [List.find?_eq_none]
    intro y hy
    rcases hb y (List.mem_reverse.mp hy) with ⟨h1, h2⟩
    simp [h1, h2]
  rw [hnone]
  rw [List.find?_cons_of_pos _ (by decide)]
  rfl

theorem lastSep_period {a b : List Char} (hb : ∀ y ∈ b, y ≠ ',' ∧ y ≠ '.') :
    lastSepIsComma (a ++ '.' :: b) = false := by
  unfold lastSepIsComma
  rw [List.reverse_append, List.reverse_cons, List.append_assoc, List.singleton_append,
    List.find?_append]
  have hnone : b.reverse.find? (fun c => c = ',' || c = '.') = none := by
    rw [List.find?_eq_none]
    intro y hy
    rcases hb y (List.mem_reverse.mp hy) with ⟨h1, h2⟩
    simp [h1, h2]
  rw [hnone]
  rw [List.find?_cons_of_pos _ (by decide)]
  rfl

/-- C3: `parse_price` disambiguates separators by position.  When the cleaned
text splits as `a ++ sep :: b` with no separator in `b` (so `sep` is the last
separator) and the other kind occurs in `a`, the later kind becomes the
decimal point and the earlier kind is removed; a single comma with no period
is a decimal point; several periods with no comma are all removed; otherwise
the cleaned text is parsed as-is.  The spec's literal cases follow, including
the single-period case `"1.234"` parsing as the decimal `1.234`. -/
theorem claim_C3 :
    (∀ (s : String) (a b : List Char), cleanChars s.data = a ++ ',' :: b →
      (∀ y ∈ b, y ≠ ',' ∧ y ≠ '.') → '.' ∈ a →
      parse_price s =
        pyFloat (((a ++ ',' :: b).filter fun c => c ≠ '.').map
          fun c => if c = ',' then '.' else c)) ∧
    (∀ (s : String) (a b : List Char), cleanChars s.data = a ++ '.' :: b →
      (∀ y ∈ b, y ≠ ',' ∧ y ≠ '.') → ',' ∈ a →
      parse_price s = pyFloat ((a ++ '.' :: b).filter fun c => c ≠ ',')) ∧
    (∀ s : String, (cleanChars s.data).count ',' = 1 → '.' ∉ cleanChars s.data →
      parse_price s = pyFloat ((cleanChars s.data).map fun c => if c = ',' then '.' else c)) ∧
    (∀ s : String, 1 < (cleanChars s.data).count '.' → ',' ∉ cleanChars s.data →
      parse_price s = pyFloat ((cleanChars s.data).filter fun c => c ≠ '.')) ∧
    (∀ s : String, cleanChars s.data ≠ [] →
      (',' ∉ cleanChars s.data ∨ '.' ∉ cleanChars s.data) →
      (cleanChars s.data).count ',' ≠ 1 → ¬ 1 < (cleanChars s.data).count '.' →
      parse_price s = pyFloat (cleanChars s.data)) ∧
    parse_price "S/ 1,234.56" = some (PyVal.finite 1234.56) ∧
    parse_price "1.234,56" = some (PyVal.finite 1234.56) ∧
    parse_price "99" = some (PyVal.finite 99) ∧
    parse_price "" = none ∧
    parse_price "abc" = none ∧
    parse_price "1.234" = some (PyVal.finite 1.234) := by
  refine ⟨?_, ?_, ?_, ?_, ?_, ?_, ?_, ?_, ?_, ?_, ?_⟩
  · intro s a b hcl hb ha
    simp only [parse_price]
    rw [hcl, if_neg (by simp)]
    congr 1
    unfold disambiguate
    rw [contains_of_mem (show (',' : Char) ∈ a ++ ',' :: b by simp),
      contains_of_mem (show ('.' : Char) ∈ a ++ ',' :: b by simp [ha]),
      Bool.true_and, if_pos rfl, if_pos (lastSep_comma hb)]
  · intro s a b hcl hb ha
    simp only [parse_price]
    rw [hcl, if_neg (by simp)]
    congr 1
    unfold disambiguate
    rw [contains_of_mem (show (',' : Char) ∈ a ++ '.' :: b by simp [ha]),
      contains_of_mem (show ('.' : Char) ∈ a ++ '.' :: b by simp),
      Bool.true_and, if_pos rfl, lastSep_period hb, if_neg (by decide)]
  · intro s hcount hnodot
    have hmemc : ',' ∈ cleanChars s.data := by
      have : 0 < (cleanChars s.data).count ',' := by omega
      exact List.count_pos_iff.mp this
    simp only [parse_price]
    rw [if_neg (by simp [List.isEmpty_iff]; exact List.ne_nil_of_mem hmemc)]
    congr 1
    unfold disambiguate
    rw [contains_of_not_mem hnodot, Bool.and_false, if_neg (by decide), if_pos hcount]
  · intro s hcount hnocomma
    have hmemd : ('.' : Char) ∈ cleanChars s.data := by
      have : 0 < (cleanChars s.data).count '.' := by omega
      exact List.count_pos_iff.mp this
    simp only [parse_price]
    rw [if_neg (by simp [List.isEmpty_iff]; exact List.ne_nil_of_mem hmemd)]
    congr 1
    unfold disambiguate
    rw [contains_of_not_mem hnocomma, Bool.false_and, if_neg (by decide),
      if_neg (by rw [List.count_eq_zero_of_not_mem hnocomma]; decide), if_pos hcount]
  · intro s hne hmiss hc1 hd1
    simp only [parse_price]
    rw [if_neg (by simp [List.isEmpty_iff, hne])]
    congr 1
    unfold disambiguate
    have hfalse : ((cleanChars s.data).contains ',' && (cleanChars s.data).contains '.') =
        false := by
      rcases hmiss with h | h
      · rw [contains_of_not_mem h, Bool.false_and]
      · rw [contains_of_not_mem h, Bool.and_false]
    rw [hfalse, if_neg (by decide), if_neg hc1, if_neg hd1]
  · with_unfolding_all rfl
  · with_unfolding_all rfl
  · with_unfolding_all rfl
  · with_unfolding_all rfl
  · with_unfolding_all rfl
  · with_unfolding_all rfl

/-- C3 witness: the both-separators clause applied to `"1.234,56"`, whose
last separator is the comma. -/
theorem claim_C3_witness :
    parse_price "1.234,56" =
      pyFloat ((((['1', '.', '2', '3', '4'] ++ ',' :: ['5', '6']).filter
        fun c => c ≠ '.').map fun c => if c = ',' then '.' else c)) :=
  claim_C3.1 "1.234,56" ['1', '.', '2', '3', '4'] ['5', '6'] (by with_unfolding_all rfl)
    (by decide) (by decide)

theorem hexDigest_length (st : Hash8) : (hexDigest st).length = 64 := by
  simp [hexDigest, wordHex]

/-- C6: the Identity Deriver is deterministic, case- and outer-whitespace-
insensitive on the title, and insensitive to everything after the first
question mark of the URL; it always yields a 24-character identifier; the
spec's concrete pair of inputs collide and the different-path input differs. -/
theorem claim_C6 :
    (∀ site t1 t2 u1 u2 : String,
      pyLower (pyStrip t1.data) = pyLower (pyStrip t2.data) →
      u1.data.takeWhile (fun c => c ≠ '?') = u2.data.takeWhile (fun c => c ≠ '?') →
      stable_id site t1 u1 = stable_id site t2 u2) ∧
    (∀ site t u : String, (stable_id site t u).length = 24) ∧
    stable_id "siteA" "Nice Shoes" "https://x/p/1?utm=foo" =
      stable_id "siteA" "nice shoes" "https://x/p/1?utm=bar" ∧
    stable_id "siteA" "Nice Shoes" "https://x/p/1?utm=foo" ≠
      stable_id "siteA" "Nice Shoes" "https://x/p/2" := by
  refine ⟨?_, ?_, ?_, ?_⟩
  · intro site t1 t2 u1 u2 h1 h2
    unfold stable_id canonicalKey
    rw [h1, h2]
  · intro site t u
    show ((hexDigest (sha256 (encodeUtf8 (canonicalKey site t u)))).take 24).length = 24
    rw [List.length_take, hexDigest_length]
    omega
  · rfl
  · have h : ((stable_id "siteA" "Nice Shoes" "https://x/p/1?utm=foo").data ==
        (stable_id "siteA" "Nice Shoes" "https://x/p/2").data) = false := rfl
    intro he
    rw [he] at h
    simp at h

/-- C6 witness: the congruence clause applied to a title differing in case
and outer whitespace and a URL differing only after the question mark. -/
theorem claim_C6_witness :
    stable_id "siteA" " Nice Shoes " "https://x/p/9?a=1" =
      stable_id "siteA" "nice shoes" "https://x/p/9?b=2" :=
  claim_C6.1 "siteA" " Nice Shoes " "nice shoes" "https://x/p/9?a=1" "https://x/p/9?b=2"
    rfl rfl

theorem lookup_upsert_self {α : Type} (k : String) (v : α) (l : List (String × α)) :
    lookup k (upsert k v l) = some v := by
  induction l with
  | nil => simp [lookup, upsert]
  | cons h t ih =>
    obtain ⟨k0, v0⟩ := h
    by_cases hk : k0 = k
    · simp [lookup, upsert, hk]
    · simp [lookup, upsert, hk, ih]

theorem lookup_upsert_of_ne {α : Type} {k k0 : String} (h : k0 ≠ k) (v : α)
    (l : List (String × α)) : lookup k0 (upsert k v l) = lookup k0 l := by
  induction l with
  | nil =>
    show (if k = k0 then some v else none) = none
    rw [if_neg fun hc => h hc.symm]
  | cons hd t ih =>
    obtain ⟨k1, v1⟩ := hd
    simp only [upsert]
    by_cases hk : k1 = k
    · rw [if_pos hk]
      simp only [lookup]
      rw [if_neg fun hc => h hc.symm, hk, if_neg fun hc => h hc.symm]
    · rw [if_neg hk]
      simp only [lookup]
      by_cases h2 : k1 = k0
      · rw [if_pos h2, if_pos h2]
      · rw [if_neg h2, if_neg h2, ih]

theorem length_upsert_none {α : Type} {k : String} {l : List (String × α)}
    (h : lookup k l = none) (v : α) : (upsert k v l).length = l.length + 1 := by
  induction l with
  | nil => simp [upsert]
  | cons hd t ih =>
    obtain ⟨k1, v1⟩ := hd
    simp only [lookup] at h
    by_cases hk : k1 = k
    · simp [hk] at h
    · simp [hk] at h
      simp [upsert, hk, ih h]

theorem processProduct_products (thr : ℚ) (now : ℤ) (site : String) (acc : St × List String)
    (p : Product) :
    (processProduct thr now site acc p).1.products =
      upsert p.product_id ⟨p.title, site, p.url, p.price_pen, now⟩ acc.1.products := by
  cases hprev : lookup p.product_id acc.1.products with
  | none => simp only [processProduct, hprev]
  | some e =>
    simp only [processProduct, hprev]
    split_ifs <;> rfl

theorem processProduct_alert_cases (thr : ℚ) (now : ℤ) (site : String)
    (acc : St × List String) (p : Product) :
    ((processProduct thr now site acc p).1.alerts_sent = acc.1.alerts_sent ∧
      (processProduct thr now site acc p).2 = acc.2) ∨
    (∃ e, lookup p.product_id acc.1.products = some e ∧
      0 < e.last_price ∧ p.price_pen < e.last_price ∧
      thr ≤ (e.last_price - p.price_pen) / e.last_price * 100 ∧
      lookup (alertKey p.product_id e.last_price p.price_pen) acc.1.alerts_sent = none ∧
      (processProduct thr now site acc p).1.alerts_sent =
        upsert (alertKey p.product_id e.last_price p.price_pen) now acc.1.alerts_sent ∧
      (processProduct thr now site acc p).2 =
        acc.2 ++ [alertText ((e.last_price - p.price_pen) / e.last_price * 100) site p.title
          e.last_price p.price_pen p.url]) := by
  cases hprev : lookup p.product_id acc.1.products with
  | none =>
    left
    simp [processProduct, hprev]
  | some e =>
    simp only [processProduct, hprev]
    split_ifs with h1 h2 h3
    · exact Or.inl ⟨rfl, rfl⟩
    · exact Or.inl ⟨rfl, rfl⟩
    · exact Or.inl ⟨rfl, rfl⟩
    · right
      push_neg at h1 h2
      exact ⟨e, rfl, h1.1, h1.2, h2, Option.not_isSome_iff_eq_none.mp h3, rfl, rfl⟩

theorem lookup_upsert_isSome {α : Type} {k k1 : String} {l : List (String × α)} (v : α)
    (h : (lookup k l).isSome = true) : (lookup k (upsert k1 v l)).isSome = true := by
  by_cases hk : k = k1
  · subst hk
    rw [lookup_upsert_self]
    rfl
  · rw [lookup_upsert_of_ne (fun hc => hk hc) v l]
    exact h

theorem processProduct_ledger_mono (thr : ℚ) (now : ℤ) (site : String)
    (acc : St × List String) (p : Product) {k : String} {v : ℤ}
    (h : lookup k acc.1.alerts_sent = some v) :
    lookup k (processProduct thr now site acc p).1.alerts_sent = some v := by
  rcases processProduct_alert_cases thr now site acc p with ⟨h1, _⟩ | ⟨e, _, _, _, _, hkey, h1, _⟩
  · rw [h1]; exact h
  · rw [h1]
    have hne : k ≠ alertKey p.product_id e.last_price p.price_pen := by
      intro hc
      rw [hc, hkey] at h
      exact Option.noConfusion h
    rw [lookup_upsert_of_ne hne]
    exact h

theorem processProduct_count (thr : ℚ) (now : ℤ) (site : String)
    (acc : St × List String) (p : Product) :
    (processProduct thr now site acc p).1.alerts_sent.length + acc.2.length =
      acc.1.alerts_sent.length + (processProduct thr now site acc p).2.length := by
  rcases processProduct_alert_cases thr now site acc p with ⟨h1, h2⟩ | ⟨e, _, _, _, _, hkey, h1, h2⟩
  · rw [h1, h2]
  · rw [h1, h2, length_upsert_none hkey, List.length_append]
    simp
    omega

theorem processProduct_alerts_extend (thr : ℚ) (now : ℤ) (site : String)
    (acc : St × List String) (p : Product) :
    ∃ t, (processProduct thr now site acc p).2 = acc.2 ++ t := by
  rcases processProduct_alert_cases thr now site acc p with ⟨_, h2⟩ | ⟨e, _, _, _, _, _, _, h2⟩
  · exact ⟨[], by rw [h2, List.append_nil]⟩
  · exact ⟨_, h2⟩

theorem processProduct_products_isSome (thr : ℚ) (now : ℤ) (site : String)
    (acc : St × List String) (p : Product) {k : String}
    (h : (lookup k acc.1.products).isSome = true) :
    (lookup k (processProduct thr now site acc p).1.products).isSome = true := by
  rw [processProduct_products]
  exact lookup_upsert_isSome _ h

theorem foldlPP_ledger_mono (thr : ℚ) (now : ℤ) (site : String) :
    ∀ (ps : List Product) (acc : St × List String) (k : String) (v : ℤ),
      lookup k acc.1.alerts_sent = some v →
      lookup k (ps.foldl (processProduct thr now site) acc).1.alerts_sent = some v := by
  intro ps
  induction ps with
  | nil => intro acc k v h; simpa using h
  | cons p t ih =>
    intro acc k v h
    rw [List.foldl_cons]
    exact ih _ k v (processProduct_ledger_mono thr now site acc p h)

theorem foldlPP_count (thr : ℚ) (now : ℤ) (site : String) :
    ∀ (ps : List Product) (acc : St × List String),
      (ps.foldl (processProduct thr now site) acc).1.alerts_sent.length + acc.2.length =
        acc.1.alerts_sent.length + (ps.foldl (processProduct thr now site) acc).2.length := by
  intro ps
  induction ps with
  | nil => intro acc; simp
  | cons p t ih =>
    intro acc
    rw [List.foldl_cons]
    have h1 := processProduct_count thr now site acc p
    have h2 := ih (processProduct thr now site acc p)
    omega

theorem foldlPP_products_isSome (thr : ℚ) (now : ℤ) (site : String) :
    ∀ (ps : List Product) (acc : St × List String) (k : String),
      (lookup k acc.1.products).isSome = true →
      (lookup k (ps.foldl (processProduct thr now site) acc).1.products).isSome = true := by
  intro ps
  induction ps with
  | nil => intro acc k h; simpa using h
  | cons p t ih =>
    intro acc k h
    rw [List.foldl_cons]
    exact ih _ k (processProduct_products_isSome thr now site acc p h)

theorem processSites_eq_foldl (thr : ℚ) (now : ℤ)
    (sites : List (String × Option (List Product))) (st : St) :
    processSites thr now sites st = sites.foldl (siteStep thr now) (st, []) := rfl

theorem siteStep_ledger_mono (thr : ℚ) (now : ℤ) (acc : St × List String)
    (sp : String × Option (List Product)) {k : String} {v : ℤ}
    (h : lookup k acc.1.alerts_sent = some v) :
    lookup k (siteStep thr now acc sp).1.alerts_sent = some v := by
  unfold siteStep
  cases sp.2 with
  | none => exact h
  | some ps => exact foldlPP_ledger_mono thr now sp.1 ps (acc.1, acc.2) k v h

theorem siteStep_count (thr : ℚ) (now : ℤ) (acc : St × List String)
    (sp : String × Option (List Product)) :
    (siteStep thr now acc sp).1.alerts_sent.length + acc.2.length =
      acc.1.alerts_sent.length + (siteStep thr now acc sp).2.length := by
  unfold siteStep
  cases sp.2 with
  | none => rfl
  | some ps => exact foldlPP_count thr now sp.1 ps (acc.1, acc.2)

theorem siteStep_products_isSome (thr : ℚ) (now : ℤ) (acc : St × List String)
    (sp : String × Option (List Product)) {k : String}
    (h : (lookup k acc.1.products).isSome = true) :
    (lookup k (siteStep thr now acc sp).1.products).isSome = true := by
  unfold siteStep
  cases sp.2 with
  | none => exact h
  | some ps => exact foldlPP_products_isSome thr now sp.1 ps (acc.1, acc.2) k h

theorem foldlSites_ledger_mono (thr : ℚ) (now : ℤ) :
    ∀ (sites : List (String × Option (List Product))) (acc : St × List String)
      (k : String) (v : ℤ), lookup k acc.1.alerts_sent = some v →
      lookup k (sites.foldl (siteStep thr now) acc).1.alerts_sent = some v := by
  intro sites
  induction sites with
  | nil => intro acc k v h; simpa using h
  | cons sp t ih =>
    intro acc k v h
    rw [List.foldl_cons]
    exact ih _ k v (siteStep_ledger_mono thr now acc sp h)

theorem foldlSites_count (thr : ℚ) (now : ℤ) :
    ∀ (sites : List (String × Option (List Product))) (acc : St × List String),
      (sites.foldl (siteStep thr now) acc).1.alerts_sent.length + acc.2.length =
        acc.1.alerts_sent.length + (sites.foldl (siteStep thr now) acc).2.length := by
  intro sites
  induction sites with
  | nil => intro acc; simp
  | cons sp t ih =>
    intro acc
    rw [List.foldl_cons]
    have h1 := siteStep_count thr now acc sp
    have h2 := ih (siteStep thr now acc sp)
    omega

theorem foldlSites_products_isSome (thr : ℚ) (now : ℤ) :
    ∀ (sites : List (String × Option (List Product))) (acc : St × List String) (k : String),
      (lookup k acc.1.products).isSome = true →
      (lookup k (sites.foldl (siteStep thr now) acc).1.products).isSome = true := by
  intro sites
  induction sites with
  | nil => intro acc k h; simpa using h
  | cons sp t ih =>
    intro acc k h
    rw [List.foldl_cons]
    exact ih _ k (siteStep_products_isSome thr now acc sp h)

theorem sendPhase_all_ok (sendOk : String → Bool) :
    ∀ t : List String, (∀ a ∈ t, sendOk a = true) → sendPhase sendOk t = (t, true) := by
  intro t
  induction t with
  | nil => intro _; rfl
  | cons a rest ih =>
    intro h
    unfold sendPhase
    rw [if_pos (h a (List.mem_cons_self a rest)), ih fun x hx => h x (List.mem_cons_of_mem a hx)]

theorem sendPhase_fail (sendOk : String → Bool) :
    ∀ (u : List String) (a : String) (v : List String),
      (∀ x ∈ u, sendOk x = true) → sendOk a = false →
      sendPhase sendOk (u ++ a :: v) = (u ++ [a], false) := by
  intro u
  induction u with
  | nil =>
    intro a v _ ha
    show sendPhase sendOk (a :: v) = ([a], false)
    unfold sendPhase
    rw [if_neg (by rw [ha]; exact Bool.false_ne_true)]
  | cons x u ih =>
    intro a v h ha
    have hx : sendOk x = true := h x (List.mem_cons_self x u)
    show sendPhase sendOk (x :: (u ++ a :: v)) = (x :: (u ++ [a]), false)
    unfold sendPhase
    rw [if_pos hx, ih a v (fun y hy => h y (List.mem_cons_of_mem x hy)) ha]

/-- C2: the Drop Detector never alerts on a first observation; for a tracked
product with prior price `P_old` and new price `P_new` (fresh transition key),
an alert is raised iff `0 < P_old`, `P_new < P_old` and the drop percentage
`(P_old - P_new) / P_old * 100` reaches the threshold; with threshold 50,
prior 100 and new 40 alert (60%) while prior 100 and new 60 do not (40%). -/
theorem claim_C2 :
    (∀ (thr : ℚ) (now : ℤ) (site : String) (st : St) (alerts : List String) (p : Product),
      lookup p.product_id st.products = none →
      (processProduct thr now site (st, alerts) p).2 = alerts) ∧
    (∀ (thr : ℚ) (now : ℤ) (site : String) (st : St) (alerts : List String) (p : Product)
      (e : Entry), lookup p.product_id st.products = some e →
      lookup (alertKey p.product_id e.last_price p.price_pen) st.alerts_sent = none →
      ((processProduct thr now site (st, alerts) p).2 ≠ alerts ↔
        (0 < e.last_price ∧ p.price_pen < e.last_price ∧
          thr ≤ (e.last_price - p.price_pen) / e.last_price * 100))) ∧
    (processProduct 50 0 "s" (⟨[("X", ⟨"t", "s", "u", 100, 0⟩)], []⟩, [])
      ⟨"s", "X", "t", 40, "u"⟩).2.length = 1 ∧
    (processProduct 50 0 "s" (⟨[("X", ⟨"t", "s", "u", 100, 0⟩)], []⟩, [])
      ⟨"s", "X", "t", 60, "u"⟩).2 = [] := by
  refine ⟨?_, ?_, ?_, ?_⟩
  · intro thr now site st alerts p h
    simp only [processProduct, h]
  · intro thr now site st alerts p e hprev hkey
    constructor
    · intro hne
      rcases processProduct_alert_cases thr now site (st, alerts) p with ⟨_, h2⟩ |
        ⟨e2, hprev2, h1, h2, h3, _, _, _⟩
      · exact absurd h2 hne
      · have he : e2 = e := by
          rw [hprev] at hprev2
          exact (Option.some_inj.mp hprev2).symm
        subst he
        exact ⟨h1, h2, h3⟩
    · intro ⟨h1, h2, h3⟩
      simp only [processProduct, hprev]
      rw [if_neg (by push_neg; exact ⟨h1, h2⟩), if_neg (not_lt.mpr h3),
        if_neg (by rw [hkey]; simp)]
      simp
  · with_unfolding_all rfl
  · with_unfolding_all rfl

/-- C2 witness: the tracked-product clause applied at prior 100, new 40,
threshold 50. -/
theorem claim_C2_witness :
    (processProduct 50 0 "s" (⟨[("X", ⟨"t", "s", "u", 100, 0⟩)], []⟩, [])
      ⟨"s", "X", "t", 40, "u"⟩).2 ≠ ([] : List String) :=
  (claim_C2.2.1 50 0 "s" ⟨[("X", ⟨"t", "s", "u", 100, 0⟩)], []⟩ [] ⟨"s", "X", "t", 40, "u"⟩
    ⟨"t", "s", "u", 100, 0⟩ (by with_unfolding_all rfl) (by with_unfolding_all rfl)).mpr
    (by norm_num)

/-- C8: the tracked-state entry of every observed product is overwritten
(title, site, URL, price, timestamp) unconditionally, whatever the alert
decision; and no key present before a run is ever deleted by it. -/
theorem claim_C8 :
    (∀ (thr : ℚ) (now : ℤ) (site : String) (acc : St × List String) (p : Product),
      lookup p.product_id (processProduct thr now site acc p).1.products =
        some ⟨p.title, site, p.url, p.price_pen, now⟩) ∧
    (∀ (thr : ℚ) (now : ℤ) (sites : List (String × Option (List Product))) (st : St)
      (k : String), (lookup k st.products).isSome = true →
      (lookup k (processSites thr now sites st).1.products).isSome = true) := by
  constructor
  · intro thr now site acc p
    rw [processProduct_products]
    exact lookup_upsert_self _ _ _
  · intro thr now sites st k h
    rw [processSites_eq_foldl]
    exact foldlSites_products_isSome thr now sites (st, []) k h

/-- C8 witness: the no-deletion clause applied to a one-product state. -/
theorem claim_C8_witness :
    (lookup "X" (processSites 50 0 [("s", some [⟨"s", "X", "t", 40, "u"⟩])]
      ⟨[("X", ⟨"t", "s", "u", 100, 0⟩)], []⟩).1.products).isSome = true :=
  claim_C8.2 50 0 [("s", some [⟨"s", "X", "t", 40, "u"⟩])]
    ⟨[("X", ⟨"t", "s", "u", 100, 0⟩)], []⟩ "X" (by with_unfolding_all rfl)

/-- C5: the Alert Deduplicator suppresses a candidate whose transition key is
already in the ledger (state and alert list unchanged), accepts a fresh one
recording the key with the current timestamp, never removes or updates a
recorded key across a whole run, and the identical `(X, 100.00 -> 40.00)`
transition submitted in two separate runs yields exactly one accepted alert
in total. -/
theorem claim_C5 :
    (∀ (thr : ℚ) (now : ℤ) (site : String) (st : St) (alerts : List String) (p : Product)
      (e : Entry), lookup p.product_id st.products = some e →
      (lookup (alertKey p.product_id e.last_price p.price_pen) st.alerts_sent).isSome = true →
      (processProduct thr now site (st, alerts) p).1.alerts_sent = st.alerts_sent ∧
      (processProduct thr now site (st, alerts) p).2 = alerts) ∧
    (∀ (thr : ℚ) (now : ℤ) (site : String) (st : St) (alerts : List String) (p : Product)
      (e : Entry), lookup p.product_id st.products = some e →
      0 < e.last_price → p.price_pen < e.last_price →
      thr ≤ (e.last_price - p.price_pen) / e.last_price * 100 →
      lookup (alertKey p.product_id e.last_price p.price_pen) st.alerts_sent = none →
      (processProduct thr now site (st, alerts) p).1.alerts_sent =
        upsert (alertKey p.product_id e.last_price p.price_pen) now st.alerts_sent ∧
      (processProduct thr now site (st, alerts) p).2 =
        alerts ++ [alertText ((e.last_price - p.price_pen) / e.last_price * 100) site p.title
          e.last_price p.price_pen p.url]) ∧
    (∀ (thr : ℚ) (now : ℤ) (sites : List (String × Option (List Product))) (st : St)
      (k : String) (v : ℤ), lookup k st.alerts_sent = some v →
      lookup k (processSites thr now sites st).1.alerts_sent = some v) ∧
    (processSites 50 1 [("s", some [⟨"s", "X", "t", 40, "u"⟩])]
      ⟨[("X", ⟨"t", "s", "u", 100, 0⟩)], []⟩).2.length = 1 ∧
    (processSites 50 2 [("s", some [⟨"s", "X", "t", 100, "u"⟩]), ("s2", some [⟨"s", "X", "t", 40, "u"⟩])]
      (processSites 50 1 [("s", some [⟨"s", "X", "t", 40, "u"⟩])]
        ⟨[("X", ⟨"t", "s", "u", 100, 0⟩)], []⟩).1).2.length = 0 := by
  refine ⟨?_, ?_, ?_, ?_, ?_⟩
  · intro thr now site st alerts p e hprev hkey
    rcases processProduct_alert_cases thr now site (st, alerts) p with ⟨h1, h2⟩ |
      ⟨e2, hprev2, _, _, _, hk2, _, _⟩
    · exact ⟨h1, h2⟩
    · have he : e2 = e := by
        rw [hprev] at hprev2
        exact (Option.some_inj.mp hprev2).symm
      subst he
      rw [hk2] at hkey
      exact absurd hkey (by simp)
  · intro thr now site st alerts p e hprev h1 h2 h3 hkey
    simp only [processProduct, hprev]
    rw [if_neg (by push_neg; exact ⟨h1, h2⟩), if_neg (not_lt.mpr h3),
      if_neg (by rw [hkey]; simp)]
    exact ⟨rfl, rfl⟩
  · intro thr now sites st k v h
    rw [processSites_eq_foldl]
    exact foldlSites_ledger_mono thr now sites (st, []) k v h
  · with_unfolding_all rfl
  · with_unfolding_all rfl

/-- C5 witness: the suppression clause applied to a ledger already holding
the `X:100.00->40.00` key. -/
theorem claim_C5_witness :
    (processProduct 50 5 "s" (⟨[("X", ⟨"t", "s", "u", 100, 0⟩)], [("X:100.00->40.00", 1)]⟩, [])
      ⟨"s", "X", "t", 40, "u"⟩).2 = ([] : List String) :=
  (claim_C5.1 50 5 "s" ⟨[("X", ⟨"t", "s", "u", 100, 0⟩)], [("X:100.00->40.00", 1)]⟩ []
    ⟨"s", "X", "t", 40, "u"⟩ ⟨"t", "s", "u", 100, 0⟩ (by with_unfolding_all rfl)
    (by with_unfolding_all rfl)).2

/-- C7: when every attempted send succeeds, the sends attempted in a run are
exactly the accepted alert list truncated to the cap, in order — hence
`min N cap` of them — while the ledger grows by one entry per accepted alert
(all `N` accepted transitions are recorded, cap notwithstanding). -/
theorem claim_C7 (thr : ℚ) (cap : ℕ) (now : ℤ) (sendOk : String → Bool)
    (sites : List (String × Option (List Product))) (st : St) :
    ((∀ a ∈ (processSites thr now sites st).2.take cap, sendOk a = true) →
      (runMonitor thr cap now sendOk sites st).attempted =
        (processSites thr now sites st).2.take cap ∧
      (runMonitor thr cap now sendOk sites st).attempted.length =
        min (processSites thr now sites st).2.length cap) ∧
    (processSites thr now sites st).1.alerts_sent.length =
      st.alerts_sent.length + (processSites thr now sites st).2.length := by
  constructor
  · intro h
    have hsend := sendPhase_all_ok sendOk _ h
    constructor
    · show (sendPhase sendOk ((processSites thr now sites st).2.take cap)).1 = _
      rw [hsend]
    · show (sendPhase sendOk ((processSites thr now sites st).2.take cap)).1.length = _
      rw [hsend]
      simp [List.length_take, Nat.min_comm]
  · have := foldlSites_count thr now sites (st, [])
    rw [processSites_eq_foldl]
    simp at this
    omega

/-- C7 witness: three qualifying drops against a cap of two yield
`min 3 2` attempted sends. -/
theorem claim_C7_witness :
    (runMonitor 50 2 0 (fun _ => true)
      [("s", some [⟨"s", "X", "t", 40, "u"⟩, ⟨"s", "Y", "t2", 40, "u2"⟩,
        ⟨"s", "Z", "t3", 40, "u3"⟩])]
      ⟨[("X", ⟨"t", "s", "u", 100, 0⟩), ("Y", ⟨"t2", "s", "u2", 100, 0⟩),
        ("Z", ⟨"t3", "s", "u3", 100, 0⟩)], []⟩).attempted.length =
      min (processSites 50 0
      [("s", some [⟨"s", "X", "t", 40, "u"⟩, ⟨"s", "Y", "t2", 40, "u2"⟩,
        ⟨"s", "Z", "t3", 40, "u3"⟩])]
      ⟨[("X", ⟨"t", "s", "u", 100, 0⟩), ("Y", ⟨"t2", "s", "u2", 100, 0⟩),
        ("Z", ⟨"t3", "s", "u3", 100, 0⟩)], []⟩).2.length 2 :=
  ((claim_C7 50 2 0 (fun _ => true) _ _).1 (fun a _ => rfl)).2

/-- C1 counterexample: the claim says a failed send still lets every later
alert be attempted and the run complete with its state persisted; but
`send_telegram_message` raises on failure with no handler in `monitor`, so
with two accepted alerts and failing delivery only the first alert is
attempted and `save_state` is never reached. -/
theorem claim_C1_counterexample :
    (runMonitor 50 20 0 (fun _ => false)
      [("s", some [⟨"s", "X", "t", 40, "u"⟩, ⟨"s", "Y", "t2", 40, "u2"⟩])]
      ⟨[("X", ⟨"t", "s", "u", 100, 0⟩), ("Y", ⟨"t2", "s", "u2", 100, 0⟩)], []⟩).alerts.length = 2 ∧
    (runMonitor 50 20 0 (fun _ => false)
      [("s", some [⟨"s", "X", "t", 40, "u"⟩, ⟨"s", "Y", "t2", 40, "u2"⟩])]
      ⟨[("X", ⟨"t", "s", "u", 100, 0⟩), ("Y", ⟨"t2", "s", "u2", 100, 0⟩)], []⟩).attempted.length = 1 ∧
    (runMonitor 50 20 0 (fun _ => false)
      [("s", some [⟨"s", "X", "t", 40, "u"⟩, ⟨"s", "Y", "t2", 40, "u2"⟩])]
      ⟨[("X", ⟨"t", "s", "u", 100, 0⟩), ("Y", ⟨"t2", "s", "u2", 100, 0⟩)], []⟩).persisted = none := by
  refine ⟨?_, ?_, ?_⟩ <;> with_unfolding_all rfl

/-- C1 (amended): a failure sending an alert aborts the run — the failing
alert is the last one attempted and the updated state is not persisted; only
when every send of the (truncated) alert list succeeds are all of them
attempted and the state persisted. -/
theorem claim_C1 (thr : ℚ) (cap : ℕ) (now : ℤ) (sendOk : String → Bool)
    (sites : List (String × Option (List Product))) (st : St) :
    ((∀ a ∈ (processSites thr now sites st).2.take cap, sendOk a = true) →
      (runMonitor thr cap now sendOk sites st).attempted =
        (processSites thr now sites st).2.take cap ∧
      (runMonitor thr cap now sendOk sites st).persisted =
        some ((processSites thr now sites st).1, now)) ∧
    (∀ (u : List String) (a : String) (v : List String),
      (processSites thr now sites st).2.take cap = u ++ a :: v →
      (∀ x ∈ u, sendOk x = true) → sendOk a = false →
      (runMonitor thr cap now sendOk sites st).attempted = u ++ [a] ∧
      (runMonitor thr cap now sendOk sites st).persisted = none) := by
  constructor
  · intro h
    have hsend := sendPhase_all_ok sendOk _ h
    constructor
    · show (sendPhase sendOk ((processSites thr now sites st).2.take cap)).1 = _
      rw [hsend]
    · show (if (sendPhase sendOk ((processSites thr now sites st).2.take cap)).2 then _ else _) = _
      rw [hsend]
      rfl
  · intro u a v hsplit hu ha
    have hsend := sendPhase_fail sendOk u a v hu ha
    constructor
    · show (sendPhase sendOk ((processSites thr now sites st).2.take cap)).1 = _
      rw [hsplit, hsend]
    · show (if (sendPhase sendOk ((processSites thr now sites st).2.take cap)).2 then _ else _) = _
      rw [hsplit, hsend]
      rfl

/-- C1 witness: the all-sends-succeed clause at a one-alert run. -/
theorem claim_C1_witness :
    (runMonitor 50 20 0 (fun _ => true) [("s", some [⟨"s", "X", "t", 40, "u"⟩])]
      ⟨[("X", ⟨"t", "s", "u", 100, 0⟩)], []⟩).persisted =
      some ((processSites 50 0 [("s", some [⟨"s", "X", "t", 40, "u"⟩])]
        ⟨[("X", ⟨"t", "s", "u", 100, 0⟩)], []⟩).1, 0) :=
  ((claim_C1 50 20 0 (fun _ => true) [("s", some [⟨"s", "X", "t", 40, "u"⟩])]
    ⟨[("X", ⟨"t", "s", "u", 100, 0⟩)], []⟩).1 (fun a _ => rfl)).2

theorem lookup_append {α : Type} (k : String) (l1 l2 : List (String × α)) :
    lookup k (l1 ++ l2) = (lookup k l1).or (lookup k l2) := by
  induction l1 with
  | nil => simp [lookup]
  | cons hd t ih =>
    obtain ⟨k1, v1⟩ := hd
    by_cases h : k1 = k <;> simp [lookup, h, ih]

theorem extractBlock_spec {site base : String} {join : String → String → String} {b : Block}
    {p : RawProduct} (h : extractBlock site base join b = some p) :
    p.title ≠ "" ∧ pyNonpos p.price_pen = false ∧
      (∀ q : ℚ, p.price_pen = PyVal.finite q → 0 < q) ∧
      ∃ hr : String, hr ≠ "" ∧ p.url = join base hr := by
  simp only [extractBlock] at h
  split_ifs at h with h1
  push_neg at h1
  obtain ⟨ht, hraw, bhref⟩ := h1
  split at h
  · exact Option.noConfusion h
  · next v heq =>
    split_ifs at h with h2
    have hprod := Option.some_inj.mp h
    subst hprod
    refine ⟨ht, Bool.eq_false_iff.mpr h2, ?_, pickFirstHref b LINK_SELECTORS, bhref, rfl⟩
    intro q hq
    have hv : v = PyVal.finite q := hq
    rw [hv] at h2
    simp only [pyNonpos, decide_eq_true_eq] at h2
    exact not_le.mp h2

theorem exStep_products_inv {Q : RawProduct → Prop} {site base : String}
    {join : String → String → String} {soup : Soup} {maxItems : ℕ}
    (hQ : ∀ (b : Block) (p : RawProduct), extractBlock site base join b = some p → Q p)
    (acc : ExAcc) (i : ℕ) (h : ∀ p ∈ acc.products, Q p) :
    ∀ p ∈ (exStep site base join soup maxItems acc i).products, Q p := by
  unfold exStep
  split_ifs with h1 h2
  · exact h
  · exact h
  · split
    · exact h
    · next p0 heq =>
      intro p hp
      rcases List.mem_append.mp hp with hin | hone
      · exact h p hin
      · rw [List.mem_singleton.mp hone]
        exact hQ _ _ heq

theorem foldlEx_products_inv {Q : RawProduct → Prop} {site base : String}
    {join : String → String → String} {soup : Soup} {maxItems : ℕ}
    (hQ : ∀ (b : Block) (p : RawProduct), extractBlock site base join b = some p → Q p) :
    ∀ (ls : List ℕ) (acc : ExAcc), (∀ p ∈ acc.products, Q p) →
      ∀ p ∈ (ls.foldl (exStep site base join soup maxItems) acc).products, Q p := by
  intro ls
  induction ls with
  | nil => intro acc h; simpa using h
  | cons i t ih =>
    intro acc h
    rw [List.foldl_cons]
    exact ih _ (exStep_products_inv hQ acc i h)

theorem extractScan_products_inv {Q : RawProduct → Prop} {site base : String}
    {join : String → String → String} {soup : Soup} {maxItems : ℕ}
    (hQ : ∀ (b : Block) (p : RawProduct), extractBlock site base join b = some p → Q p) :
    ∀ p ∈ (extractScan site soup base join maxItems).products, Q p := by
  unfold extractScan
  generalize (match lookup site SITE_PRODUCT_SELECTORS with
    | some l => l
    | none => defaultSelectors) = sels
  have : ∀ (sels : List String) (acc : ExAcc), (∀ p ∈ acc.products, Q p) →
      ∀ p ∈ (sels.foldl (fun acc sel =>
        (soup.select sel).foldl (exStep site base join soup maxItems) acc) acc).products,
      Q p := by
    intro sels
    induction sels with
    | nil => intro acc h; simpa using h
    | cons sel t ih =>
      intro acc h
      rw [List.foldl_cons]
      exact ih _ (foldlEx_products_inv hQ (soup.select sel) acc h)
  exact this sels ⟨[], [], false⟩ (by simp)

theorem exStep_cap {site base : String} {join : String → String → String} {soup : Soup}
    {maxItems : ℕ} (acc : ExAcc) (i : ℕ) (h : CapInv maxItems acc) :
    CapInv maxItems (exStep site base join soup maxItems acc i) := by
  unfold exStep
  split_ifs with h1 h2
  · exact h
  · exact h
  · have hlt : acc.products.length < maxItems := h.2 (by
      cases hd : acc.done
      · rfl
      · exact absurd hd h1)
    split
    · exact ⟨Nat.le_of_lt hlt, fun _ => hlt⟩
    · refine ⟨by simpa using hlt, ?_⟩
      intro hd
      have := of_decide_eq_false hd
      simp at this ⊢
      omega

theorem foldlEx_cap {site base : String} {join : String → String → String} {soup : Soup}
    {maxItems : ℕ} : ∀ (ls : List ℕ) (acc : ExAcc), CapInv maxItems acc →
      CapInv maxItems (ls.foldl (exStep site base join soup maxItems) acc) := by
  intro ls
  induction ls with
  | nil => intro acc h; simpa using h
  | cons i t ih =>
    intro acc h
    rw [List.foldl_cons]
    exact ih _ (exStep_cap acc i h)

theorem extractScan_cap {site base : String} {join : String → String → String} {soup : Soup}
    {maxItems : ℕ} (hmax : 0 < maxItems) :
    (extractScan site soup base join maxItems).products.length ≤ maxItems := by
  unfold extractScan
  generalize (match lookup site SITE_PRODUCT_SELECTORS with
    | some l => l
    | none => defaultSelectors) = sels
  have : ∀ (sels : List String) (acc : ExAcc), CapInv maxItems acc →
      CapInv maxItems (sels.foldl (fun acc sel =>
        (soup.select sel).foldl (exStep site base join soup maxItems) acc) acc) := by
    intro sels
    induction sels with
    | nil => intro acc h; simpa using h
    | cons sel t ih =>
      intro acc h
      rw [List.foldl_cons]
      exact ih _ (foldlEx_cap (soup.select sel) acc h)
  exact (this sels ⟨[], [], false⟩ ⟨by simpa using Nat.le_of_lt hmax, fun _ => by simpa using hmax⟩).1

theorem lookup_singleton_ne {α : Type} {k k1 : String} (h : k1 ≠ k) (v : α) :
    lookup k [(k1, v)] = none := by
  simp [lookup, h]

theorem dedupe_keys :
    ∀ (ps : List RawProduct) (acc : List (String × RawProduct)),
      (∀ kv ∈ acc, kv.1 = kv.2.product_id) →
      ∀ kv ∈ ps.foldl (fun acc p =>
        if (lookup p.product_id acc).isSome then acc else acc ++ [(p.product_id, p)]) acc,
      kv.1 = kv.2.product_id := by
  intro ps
  induction ps with
  | nil => intro acc h; simpa using h
  | cons p t ih =>
    intro acc h
    rw [List.foldl_cons]
    split_ifs with hs
    · exact ih acc h
    · refine ih _ ?_
      intro kv hkv
      rcases List.mem_append.mp hkv with hin | hone
      · exact h kv hin
      · rw [List.mem_singleton.mp hone]

theorem lookup_eq_none_iff {α : Type} (k : String) (l : List (String × α)) :
    lookup k l = none ↔ k ∉ l.map Prod.fst := by
  induction l with
  | nil => simp [lookup]
  | cons hd t ih =>
    obtain ⟨k1, v1⟩ := hd
    simp only [List.map_cons]
    by_cases h : k1 = k
    · subst h
      simp [lookup]
    · show (if k1 = k then some v1 else lookup k t) = none ↔ _
      rw [if_neg h, ih]
      constructor
      · intro hn hm
        rcases List.mem_cons.mp hm with he | hm2
        · exact h he.symm
        · exact hn hm2
      · intro hn hm
        exact hn (List.mem_cons_of_mem _ hm)

theorem dedupe_keys_nodup :
    ∀ (ps : List RawProduct) (acc : List (String × RawProduct)), (acc.map Prod.fst).Nodup →
      ((ps.foldl (fun acc p =>
        if (lookup p.product_id acc).isSome then acc else acc ++ [(p.product_id, p)]) acc).map
        Prod.fst).Nodup := by
  intro ps
  induction ps with
  | nil => intro acc h; simpa using h
  | cons p t ih =>
    intro acc h
    rw [List.foldl_cons]
    split_ifs with hs
    · exact ih acc h
    · refine ih _ ?_
      rw [List.map_append]
      rw [List.nodup_append]
      refine ⟨h, by simp, ?_⟩
      have hnot := (lookup_eq_none_iff p.product_id acc).mp
        (Option.not_isSome_iff_eq_none.mp hs)
      intro x hx hy
      simp at hy
      subst hy
      exact hnot hx

theorem dedupe_lookup :
    ∀ (ps : List RawProduct) (acc : List (String × RawProduct)) (k : String),
      lookup k (ps.foldl (fun acc p =>
        if (lookup p.product_id acc).isSome then acc else acc ++ [(p.product_id, p)]) acc) =
      (lookup k acc).or (ps.find? fun q => q.product_id == k) := by
  intro ps
  induction ps with
  | nil => intro acc k; simp
  | cons p t ih =>
    intro acc k
    rw [List.foldl_cons, List.find?_cons]
    split_ifs with hs
    · rw [ih]
      by_cases hk : (p.product_id == k) = true
      · have hk2 : p.product_id = k := beq_iff_eq.mp hk
        subst hk2
        obtain ⟨v, hv⟩ := Option.isSome_iff_exists.mp hs
        rw [hk, hv]
        rfl
      · rw [Bool.eq_false_iff.mpr hk]
    · rw [ih, lookup_append]
      by_cases hk : (p.product_id == k) = true
      · have hk2 : p.product_id = k := beq_iff_eq.mp hk
        subst hk2
        rw [Option.not_isSome_iff_eq_none.mp hs, hk]
        show ((lookup p.product_id [(p.product_id, p)]).or _) = _
        rw [show lookup p.product_id [(p.product_id, p)] = some p by simp [lookup]]
        rfl
      · have hk2 : p.product_id ≠ k := fun hc => hk (beq_iff_eq.mpr hc)
        rw [Bool.eq_false_iff.mpr hk, lookup_singleton_ne hk2, Option.or_none]

theorem lookup_of_mem_nodup {α : Type} :
    ∀ {l : List (String × α)} {k : String} {v : α}, (l.map Prod.fst).Nodup →
      (k, v) ∈ l → lookup k l = some v := by
  intro l
  induction l with
  | nil => intro k v _ h; exact absurd h (List.not_mem_nil _)
  | cons hd t ih =>
    intro k v hnd hm
    obtain ⟨k1, v1⟩ := hd
    rcases List.mem_cons.mp hm with heq | hin
    · obtain ⟨hk, hv⟩ := Prod.mk.inj heq
      show (if k1 = k then some v1 else lookup k t) = some v
      rw [if_pos hk.symm, hv]
    · show (if k1 = k then some v1 else lookup k t) = some v
      have hk1 : k1 ≠ k := by
        intro hc
        subst hc
        have : k1 ∈ t.map Prod.fst := List.mem_map.mpr ⟨(k1, v), hin, rfl⟩
        exact (List.nodup_cons.mp (by simpa using hnd)).1 this
      rw [if_neg hk1]
      exact ih (List.nodup_cons.mp (by simpa using hnd)).2 hin

theorem mem_of_lookup {α : Type} :
    ∀ {l : List (String × α)} {k : String} {v : α}, lookup k l = some v → (k, v) ∈ l := by
  intro l
  induction l with
  | nil => intro k v h; exact Option.noConfusion h
  | cons hd t ih =>
    intro k v h
    obtain ⟨k1, v1⟩ := hd
    by_cases hk : k1 = k
    · subst hk
      rw [show lookup k1 ((k1, v1) :: t) = some v1 from by simp [lookup]] at h
      rw [← Option.some_inj.mp h]
      exact List.mem_cons_self _ _
    · rw [show lookup k ((k1, v1) :: t) = lookup k t from by simp [lookup, hk]] at h
      exact List.mem_cons_of_mem _ (ih h)

theorem dedupe_sublist :
    ∀ (ps : List RawProduct) (acc : List (String × RawProduct)),
      ∃ s : List RawProduct, (ps.foldl (fun acc p =>
        if (lookup p.product_id acc).isSome then acc else acc ++ [(p.product_id, p)]) acc).map
        Prod.snd = acc.map Prod.snd ++ s ∧ s.Sublist ps := by
  intro ps
  induction ps with
  | nil => intro acc; exact ⟨[], by simp, List.Sublist.refl []⟩
  | cons p t ih =>
    intro acc
    rw [List.foldl_cons]
    split_ifs with hs
    · obtain ⟨s, hs1, hs2⟩ := ih acc
      exact ⟨s, hs1, hs2.trans (List.sublist_cons_self p t)⟩
    · obtain ⟨s, hs1, hs2⟩ := ih (acc ++ [(p.product_id, p)])
      refine ⟨p :: s, ?_, List.Sublist.cons₂ p hs2⟩
      rw [hs1, List.map_append]
      simp

theorem extractBlock_eval {site base : String} {join : String → String → String} {b : Block}
    {t r hr : String} {v : PyVal}
    (ht : pickFirstText b TITLE_SELECTORS = t)
    (hp : pickFirstText b PRICE_SELECTORS = r)
    (hh : pickFirstHref b LINK_SELECTORS = hr)
    (ht0 : ¬ t = "") (hr0 : ¬ r = "") (hh0 : ¬ hr = "")
    (hv : parse_price r = some v) (hnp : pyNonpos v = false) :
    extractBlock site base join b =
      some ⟨site, stable_id site t (join base hr), t, v, join base hr⟩ := by
  unfold extractBlock
  rw [ht, hp, hh, if_neg (by push_neg; exact ⟨ht0, hr0, hh0⟩), hv]
  show (if pyNonpos v then none else _) = _
  rw [hnp]
  rfl

theorem exStep_fresh {site base : String} {join : String → String → String} {soup : Soup}
    {maxItems : ℕ} {i : ℕ} {seen : List ℕ} {ps : List RawProduct} {p : RawProduct}
    (hseen : seen.contains i = false)
    (hblk : extractBlock site base join (soup.blockOf i) = some p) :
    exStep site base join soup maxItems ⟨seen, ps, false⟩ i =
      ⟨i :: seen, ps ++ [p], decide (maxItems ≤ (ps ++ [p]).length)⟩ := by
  unfold exStep
  rw [if_neg (show ¬((⟨seen, ps, false⟩ : ExAcc).done = true) from Bool.false_ne_true)]
  rw [if_neg (show ¬((⟨seen, ps, false⟩ : ExAcc).seen.contains i = true) from by
    intro hc
    rw [show (⟨seen, ps, false⟩ : ExAcc).seen.contains i = seen.contains i from rfl,
      hseen] at hc
    exact Bool.false_ne_true hc)]
  rw [hblk]

/-- C9 counterexample: the claim says the only silent discards are blocks
missing a field or whose price text is rejected or non-positive, and that
every kept record carries a positive normalized price (a finite amount, per
the Numeric Normalizer's contract); but on a block whose price text is `1`
followed by 309 zeros, `float()` overflows to `+inf`, the `price <= 0` guard
does not fire (bot.py line 155), and `extract_products` returns the record
with an infinite price instead of discarding it. -/
theorem claim_C9_counterexample :
    (extract_products "siteA" overflowSoup "https://x" (fun b hr => b ++ hr) 60).map
      RawProduct.price_pen = [PyVal.inf] := by
  have hT : pickFirstText overflowBlock TITLE_SELECTORS = "T" := by with_unfolding_all rfl
  have hP : pickFirstText overflowBlock PRICE_SELECTORS =
      String.mk ('1' :: List.replicate 309 '0') := by with_unfolding_all rfl
  have hH : pickFirstHref overflowBlock LINK_SELECTORS = "/p/1" := by with_unfolding_all rfl
  have hblk : extractBlock "siteA" "https://x" (fun b hr => b ++ hr) overflowBlock =
      some ⟨"siteA", stable_id "siteA" "T" ("https://x" ++ "/p/1"), "T", PyVal.inf,
        "https://x" ++ "/p/1"⟩ :=
    extractBlock_eval hT hP hH (by decide)
      (fun hc => List.cons_ne_nil '1' (List.replicate 309 '0') (congrArg String.data hc))
      (by decide) parse_price_replicate_inf rfl
  have hscan : (extractScan "siteA" overflowSoup "https://x" (fun b hr => b ++ hr) 60).products =
      [⟨"siteA", stable_id "siteA" "T" ("https://x" ++ "/p/1"), "T", PyVal.inf,
        "https://x" ++ "/p/1"⟩] := by
    show ((["article", "li", "div"].foldl
      (fun acc sel => (overflowSoup.select sel).foldl
        (exStep "siteA" "https://x" (fun b hr => b ++ hr) overflowSoup 60) acc)
      (⟨[], [], false⟩ : ExAcc))).products = _
    simp only [List.foldl_cons, List.foldl_nil]
    rw [show overflowSoup.select "article" = [0] from rfl,
      show overflowSoup.select "li" = ([] : List ℕ) from rfl,
      show overflowSoup.select "div" = ([] : List ℕ) from rfl]
    simp only [List.foldl_cons, List.foldl_nil]
    rw [exStep_fresh (show ([] : List ℕ).contains 0 = false from rfl)
      (show extractBlock "siteA" "https://x" (fun b hr => b ++ hr)
        (overflowSoup.blockOf 0) = _ from hblk)]
    rfl
  show (dedupeProducts
    (extractScan "siteA" overflowSoup "https://x" (fun b hr => b ++ hr) 60).products).map
    RawProduct.price_pen = [PyVal.inf]
  rw [hscan]
  rfl

/-- C9 (amended): every record returned by `extract_products` has a
non-empty title, a URL resolved from a non-empty `href`, and a price that is
not non-positive — a positive amount when finite, but possibly `+inf`, since
a price text at the float overflow threshold is kept, not discarded; the
records have pairwise-distinct identifiers; the output is a sublist of the
scan (so it is ordered by first appearance), keeps the first-encountered
record of each identifier, and covers every scanned identifier; and, when
the per-site maximum is positive, the output length never exceeds it. -/
theorem claim_C9 (site : String) (soup : Soup) (base : String)
    (join : String → String → String) (maxItems : ℕ) :
    (∀ p ∈ extract_products site soup base join maxItems,
      p.title ≠ "" ∧ pyNonpos p.price_pen = false ∧
        (∀ q : ℚ, p.price_pen = PyVal.finite q → 0 < q) ∧
        ∃ hr : String, hr ≠ "" ∧ p.url = join base hr) ∧
    ((extract_products site soup base join maxItems).map RawProduct.product_id).Nodup ∧
    (extract_products site soup base join maxItems).Sublist
      (extractScan site soup base join maxItems).products ∧
    (∀ p ∈ extract_products site soup base join maxItems,
      (extractScan site soup base join maxItems).products.find?
        (fun q => q.product_id == p.product_id) = some p) ∧
    (∀ q ∈ (extractScan site soup base join maxItems).products,
      ∃ p ∈ extract_products site soup base join maxItems, p.product_id = q.product_id) ∧
    (0 < maxItems → (extract_products site soup base join maxItems).length ≤ maxItems) := by
  have hscan : ∀ p ∈ (extractScan site soup base join maxItems).products,
      p.title ≠ "" ∧ pyNonpos p.price_pen = false ∧
        (∀ q : ℚ, p.price_pen = PyVal.finite q → 0 < q) ∧
        ∃ hr : String, hr ≠ "" ∧ p.url = join base hr :=
    extractScan_products_inv fun b p h => extractBlock_spec h
  obtain ⟨s, hs1, hs2⟩ := dedupe_sublist (extractScan site soup base join maxItems).products []
  have hR : extract_products site soup base join maxItems = s := by
    unfold extract_products dedupeProducts
    simpa using hs1
  have hkeys := dedupe_keys (extractScan site soup base join maxItems).products []
    (by intro kv hkv; exact absurd hkv (List.not_mem_nil kv))
  have hnodupkeys := dedupe_keys_nodup (extractScan site soup base join maxItems).products []
    (by simp)
  have hmapkeys :
      (((extractScan site soup base join maxItems).products.foldl (fun acc p =>
        if (lookup p.product_id acc).isSome then acc else acc ++ [(p.product_id, p)]) []).map
        Prod.fst) =
      (extract_products site soup base join maxItems).map RawProduct.product_id := by
    unfold extract_products dedupeProducts
    rw [List.map_map]
    refine List.map_congr_left ?_
    intro kv hkv
    exact hkeys kv hkv
  refine ⟨?_, ?_, ?_, ?_, ?_, ?_⟩
  · intro p hp
    refine hscan p ?_
    rw [hR] at hp
    exact hs2.subset hp
  · rw [← hmapkeys]
    exact hnodupkeys
  · rw [hR]
    exact hs2
  · intro p hp
    have hmem : (p.product_id, p) ∈ ((extractScan site soup base join maxItems).products.foldl
        (fun acc p =>
          if (lookup p.product_id acc).isSome then acc else acc ++ [(p.product_id, p)]) []) := by
      have hp2 : p ∈ ((extractScan site soup base join maxItems).products.foldl (fun acc p =>
          if (lookup p.product_id acc).isSome then acc else acc ++ [(p.product_id, p)]) []).map
          Prod.snd := by
        show p ∈ dedupeProducts (extractScan site soup base join maxItems).products
        exact hp
      obtain ⟨kv, hkv, hsnd⟩ := List.mem_map.mp hp2
      have hfst : kv.1 = p.product_id := by rw [hkeys kv hkv, hsnd]
      have : kv = (p.product_id, p) := Prod.ext hfst hsnd
      rw [← this]
      exact hkv
    have hlk := lookup_of_mem_nodup hnodupkeys hmem
    rw [dedupe_lookup] at hlk
    simpa [lookup] using hlk
  · intro q hq
    have hfind : ((extractScan site soup base join maxItems).products.find?
        fun r => r.product_id == q.product_id).isSome = true :=
      List.find?_isSome.mpr ⟨q, hq, by simp⟩
    obtain ⟨p, hp⟩ := Option.isSome_iff_exists.mp hfind
    have hlk : lookup q.product_id ((extractScan site soup base join maxItems).products.foldl
        (fun acc p =>
          if (lookup p.product_id acc).isSome then acc else acc ++ [(p.product_id, p)]) []) =
        some p := by
      rw [dedupe_lookup]
      simpa [lookup] using hp
    have hmem := mem_of_lookup hlk
    refine ⟨p, ?_, ?_⟩
    · exact List.mem_map.mpr ⟨(q.product_id, p), hmem, rfl⟩
    · exact (hkeys (q.product_id, p) hmem).symm
  · intro hmax
    rw [hR]
    exact Nat.le_trans hs2.length_le (extractScan_cap hmax)

/-- C9 witness: the cap clause applied to a one-block document under the
default per-site maximum of 60. -/
theorem claim_C9_witness :
    0 < 60 ∧ (extract_products "siteA"
      ⟨fun sel => if sel = "article" then [0] else [],
        fun _ => ⟨fun sel => if sel = "h1" then some "T" else none,
          fun sel => if sel = "a[href]" then some (some "/p/1") else none⟩⟩
      "https://x" (fun b hr => b ++ hr) 60).length ≤ 60 :=
  ⟨by decide, (claim_C9 "siteA"
    ⟨fun sel => if sel = "article" then [0] else [],
      fun _ => ⟨fun sel => if sel = "h1" then some "T" else none,
        fun sel => if sel = "a[href]" then some (some "/p/1") else none⟩⟩
    "https://x" (fun b hr => b ++ hr) 60).2.2.2.2.2 (by decide)⟩

end Descuento
